import Mathlib

/-!
Verification of the pdf-agent repository's layout/parsing behaviour.

Strings of the Python source are embedded as `List Char`.  Pure Python
functions of the notebook (`parse_json`, the lenient repair in
`plot_bounding_boxes`, `decode_xml_points`, `plot_points`) are translated
directly; Python library routines used by them (`str.splitlines`,
`str.split`, `str.rfind`, `str.replace`, `ast.literal_eval`,
`xml.etree.ElementTree.fromstring`) are modelled at the granularity the
claims need, with a raised exception modelled as `none`.
-/

namespace PdfAgent

/-! ### Python string primitives -/

/-- The line-boundary characters recognised by Python `str.splitlines`. -/
def isPyLineBreak (c : Char) : Bool :=
  c = '\n' || c = '\r' || c.val = 0x0b || c.val = 0x0c ||
  c.val = 0x1c || c.val = 0x1d || c.val = 0x1e || c.val = 0x85 ||
  c.val = 0x2028 || c.val = 0x2029

/-- Helper of `py_splitlines`: accumulates the current (reversed) line. -/
def py_splitlines_go (acc : List Char) : List Char → List (List Char)
  | [] => if acc = [] then [] else [acc.reverse]
  | '\r' :: '\n' :: cs => acc.reverse :: py_splitlines_go [] cs
  | c :: cs =>
      if isPyLineBreak c then acc.reverse :: py_splitlines_go [] cs
      else py_splitlines_go (c :: acc) cs

/-- Python `str.splitlines` (no trailing empty line, `\r\n` is one boundary). -/
def py_splitlines (cs : List Char) : List (List Char) :=
  py_splitlines_go [] cs

/-- Python `"\n".join(lines)`. -/
def joinNL (ls : List (List Char)) : List Char :=
  List.intercalate ['\n'] ls

/-- Splits a string at the first occurrence of `pat`: returns the prefix
before the occurrence and the suffix after it, or `none` when `pat` does
not occur.  This is the engine behind Python `str.split(sep)`. -/
def findSplit (pat : List Char) : List Char → Option (List Char × List Char)
  | [] => if pat.isPrefixOf ([] : List Char) then some ([], []) else none
  | c :: cs =>
      if pat.isPrefixOf (c :: cs) then some ([], (c :: cs).drop pat.length)
      else (findSplit pat cs).map (fun p => (c :: p.1, p.2))

/-- Python `s.split(sep)[0]`: the prefix of `s` before the first occurrence
of `sep`, or all of `s` when `sep` does not occur. -/
def py_split_first (pat cs : List Char) : List Char :=
  match findSplit pat cs with
  | none => cs
  | some p => p.1

/-- The opening fence line recognised by `parse_json`. -/
def jsonFence : List Char := "```json".data

/-- The fence marker used for the closing split in `parse_json`. -/
def backFence : List Char := "```".data

/-- The loop of `parse_json`: scans the lines for the first one equal to
 `"```json"` and returns the remaining lines, or `none` when absent. -/
def fenceScan : List (List Char) → Option (List (List Char))
  | [] => none
  | l :: ls => if l = jsonFence then some ls else fenceScan ls

/-- The notebook's `parse_json`: if some line equals `"```json"`, keep the
text after that line and before the next `"```"` (Python
`"\n".join(lines[i+1:]).split("```")[0]`); otherwise return the input. -/
def parse_json (cs : List Char) : List Char :=
  match fenceScan (py_splitlines cs) with
  | none => cs
  | some post => py_split_first backFence (joinNL post)

/-- Largest `m < n` with `p m`, or `none`. -/
def lastHit (p : Nat → Bool) : Nat → Option Nat
  | 0 => none
  | n + 1 => if p n then some n else lastHit p n

/-- Python `s.rfind(pat)`: highest index at which `pat` occurs, else `-1`. -/
def py_rfind (pat cs : List Char) : Int :=
  match lastHit (fun i => pat.isPrefixOf (cs.drop i)) (cs.length + 1) with
  | some m => (m : Int)
  | none => -1

/-- Whether `pat` occurs as a contiguous substring of `cs`. -/
def hasSub (pat cs : List Char) : Bool :=
  (List.range (cs.length + 1)).any (fun i => pat.isPrefixOf (cs.drop i))

/-- The record-terminator searched for by the lenient repair (`'"}'`). -/
def recEnd : List Char := ['\"', '\x7d']

/-- The lenient repair of `plot_bounding_boxes`:
`end_idx = s.rfind('"}') + 2; s[:end_idx] + "]"`. -/
def pyRepair (cs : List Char) : List Char :=
  cs.take (py_rfind recEnd cs + 2).toNat ++ [']']

/-! ### `ast.literal_eval` model

`plot_bounding_boxes` feeds the fence-stripped model response to
`ast.literal_eval`.  The values that actually occur are JSON-style nested
lists/dicts of integers and strings, which is the fragment modelled here;
a parse failure (Python exception) is `none`.  The parser is fuelled; the
fuel `cs.length + 1` always suffices because every recursive step consumes
at least one character. -/

/-- Python literal values produced by the model responses. -/
inductive PyVal where
  | vInt (n : Int)
  | vStr (s : List Char)
  | vList (xs : List PyVal)
  | vDict (kvs : List (List Char × PyVal))

/-- Whitespace skipped between literal tokens. -/
def isPyWs (c : Char) : Bool :=
  c = ' ' || c = '\t' || c = '\n' || c = '\r'

/-- Drop leading whitespace. -/
def skipWs (cs : List Char) : List Char :=
  cs.dropWhile isPyWs

/-- Translate an escape character inside a string literal. -/
def escChar (c : Char) : Char :=
  if c = 'n' then '\n' else if c = 't' then '\t' else c

/-- Parse the body of a double-quoted string literal (after the opening
quote), returning its contents and the rest of the input. -/
def parseStrBody : List Char → Option (List Char × List Char)
  | [] => none
  | '\\' :: c :: rest => (parseStrBody rest).map (fun p => (escChar c :: p.1, p.2))
  | '\"' :: rest => some ([], rest)
  | c :: rest => (parseStrBody rest).map (fun p => (c :: p.1, p.2))

/-- Parse a nonempty digit run into a natural number. -/
def parseDigits (cs : List Char) : Option (Nat × List Char) :=
  let digs := cs.takeWhile Char.isDigit
  if digs = [] then none
  else some (digs.foldl (fun n c => 10 * n + (c.toNat - 48)) 0, cs.dropWhile Char.isDigit)

/-- Parse an optionally signed integer literal. -/
def parseInt : List Char → Option (Int × List Char)
  | '-' :: rest => (parseDigits rest).map (fun p => (-(p.1 : Int), p.2))
  | cs => (parseDigits cs).map (fun p => ((p.1 : Int), p.2))

mutual

/-- Parse one Python literal value. -/
def parseVal : Nat → List Char → Option (PyVal × List Char)
  | 0, _ => none
  | fuel + 1, cs =>
      match skipWs cs with
      | '\"' :: rest => (parseStrBody rest).map (fun p => (PyVal.vStr p.1, p.2))
      | '[' :: rest => (parseListRest fuel rest).map (fun p => (PyVal.vList p.1, p.2))
      | '\x7b' :: rest => (parseDictRest fuel rest).map (fun p => (PyVal.vDict p.1, p.2))
      | other => (parseInt other).map (fun p => (PyVal.vInt p.1, p.2))

/-- Parse list items up to the closing bracket (tolerating a trailing
comma, as Python literals do). -/
def parseListRest : Nat → List Char → Option (List PyVal × List Char)
  | 0, _ => none
  | fuel + 1, cs =>
      match skipWs cs with
      | ']' :: rest => some ([], rest)
      | other =>
          match parseVal fuel other with
          | none => none
          | some (v, r) =>
              match skipWs r with
              | ',' :: r2 =>
                  (parseListRest fuel r2).map (fun p => (v :: p.1, p.2))
              | ']' :: r2 => some ([v], r2)
              | _ => none

/-- Parse dict entries (string keys) up to the closing brace. -/
def parseDictRest : Nat → List Char → Option (List (List Char × PyVal) × List Char)
  | 0, _ => none
  | fuel + 1, cs =>
      match skipWs cs with
      | '\x7d' :: rest => some ([], rest)
      | '\"' :: rest =>
          match parseStrBody rest with
          | none => none
          | some (key, r) =>
              match skipWs r with
              | ':' :: r2 =>
                  match parseVal fuel r2 with
                  | none => none
                  | some (v, r3) =>
                      match skipWs r3 with
                      | ',' :: r4 =>
                          (parseDictRest fuel r4).map (fun p => ((key, v) :: p.1, p.2))
                      | '\x7d' :: r4 => some ([(key, v)], r4)
                      | _ => none
              | _ => none
      | _ => none

end

/-- Model of `ast.literal_eval` on the literal fragment: parse one value
and require only whitespace to remain; `none` models the raised
`ValueError`/`SyntaxError`. -/
def literal_eval (cs : List Char) : Option PyVal :=
  match parseVal (cs.length + 1) cs with
  | none => none
  | some (v, r) => if skipWs r = [] then some v else none

/-- The parsing boundary of `plot_bounding_boxes`: strict parse first, on
failure the lenient repair followed by a second, *unguarded* parse.  A
`none` result models the exception of the second `ast.literal_eval`
escaping the function. -/
def literal_or_repair (cs : List Char) : Option PyVal :=
  match literal_eval cs with
  | some v => some v
  | none => literal_eval (pyRepair cs)

/-- The element-extraction pipeline of the notebook: fence stripping by
`parse_json`, then `literal_or_repair`. -/
def extract_boxes (cs : List Char) : Option PyVal :=
  literal_or_repair (parse_json cs)

/-! ### Box ingestion in `plot_bounding_boxes` -/

/-- An axis-aligned box in pixel coordinates. -/
structure Box where
  x1 : Int
  y1 : Int
  x2 : Int
  y2 : Int
deriving DecidableEq

/-- Model of Python `int(a / b * c)` for the coordinate scaling in
`plot_bounding_boxes`: the exact rational `a*c/b` truncated toward zero
(the float computation is exact at the integer inputs the claims use). -/
def truncScale (a b c : Int) : Int :=
  Int.tdiv (a * c) b

/-- The per-record coordinate ingestion of `plot_bounding_boxes`: scale
the four `bbox_2d` entries by image/input dimensions, then swap the x
(resp. y) pair when inverted.  There is no clamping to the page bounds. -/
def plot_bounding_boxes_ingest (iw ih w h b0 b1 b2 b3 : Int) : Box :=
  let ay1 := truncScale b1 ih h
  let ax1 := truncScale b0 iw w
  let ay2 := truncScale b3 ih h
  let ax2 := truncScale b2 iw w
  let px := if ax2 < ax1 then (ax2, ax1) else (ax1, ax2)
  let py_ := if ay2 < ay1 then (ay2, ay1) else (ay1, ay2)
  ⟨px.1, py_.1, px.2, py_.2⟩

/-! ### `decode_xml_points` and `plot_points` -/

/-- The result of `xml.etree.ElementTree.fromstring`: an attribute dict
(in document order) and the element text.  `fromstring` itself is the
external XML library; the functions below take its outcome as input, with
`none` standing for a raised `ParseError`. -/
structure XmlRoot where
  attrib : List (String × String)
  text : Option String

/-- Python `dict.get` on the attribute list. -/
def lookupAttr (a : List (String × String)) (k : String) : Option String :=
  (a.find? (fun p => p.1 == k)).map (fun p => p.2)

/-- The record returned by `decode_xml_points` on success. -/
structure PointsData where
  points : List (Option String × Option String)
  alt : Option String
  phrase : Option String

/-- The whitespace stripped by Python `str.strip`. -/
def isPyStripWs (c : Char) : Bool :=
  isPyWs c || c.val = 0x0b || c.val = 0x0c

/-- Python `str.strip()`. -/
def py_strip (s : String) : String :=
  String.mk (((s.data.dropWhile isPyStripWs).reverse.dropWhile isPyStripWs).reverse)

/-- The notebook's `decode_xml_points`, given the outcome of the external
`ET.fromstring` call; the `try/except` means a parser exception (`none`)
yields `None`.  On success: `num_points = (len(attrib) - 1) // 2` points
are read from attributes `x1,y1,x2,y2,...`, plus `alt` and the stripped
element text (`None` when the text is missing or empty, since `""` is
falsy in Python). -/
def decode_xml_points (parsed : Option XmlRoot) : Option PointsData :=
  match parsed with
  | none => none
  | some root =>
      let n := (root.attrib.length - 1) / 2
      some { points := (List.range n).map (fun i =>
               (lookupAttr root.attrib ("x" ++ toString (i + 1)),
                lookupAttr root.attrib ("y" ++ toString (i + 1)))),
             alt := lookupAttr root.attrib "alt",
             phrase := match root.text with
               | none => none
               | some t => if t = "" then none else some (py_strip t) }

/-- Python `str.replace` (all non-overlapping occurrences), fuelled. -/
def py_replace_go (pat rep : List Char) : Nat → List Char → List Char
  | 0, cs => cs
  | fuel + 1, cs =>
      match findSplit pat cs with
      | none => cs
      | some p => p.1 ++ rep ++ py_replace_go pat rep fuel p.2

/-- Python `str.replace`; the fuel `cs.length + 1` bounds the number of
occurrences. -/
def py_replace (cs pat rep : List Char) : List Char :=
  py_replace_go pat rep (cs.length + 1) cs

/-- A drawing action of `plot_points`: one point marker with its label,
recorded with the parsed (pre-scaling) integer coordinates. -/
inductive DrawOp where
  | point (ix iy : Int) (desc : Option String)

/-- Python `int(s)` on a string: strip, optional sign, digits. -/
def pyIntOfStr (s : String) : Option Int :=
  match parseInt (py_strip s).data with
  | some (n, []) => some n
  | _ => none

/-- The notebook's `plot_points`, abstracted over the external XML parser
and returning the list of draw operations instead of mutating an image:
strip the ```xml fences, decode; on `None` show the unmodified image (no
draw operations, normal return `some []`); otherwise draw each point (a
`None`/non-numeric coordinate would raise uncaught, modelled `none`). -/
def plot_points_ops (fromstring : List Char → Option XmlRoot) (text : List Char) :
    Option (List DrawOp) :=
  match decode_xml_points (fromstring (py_replace (py_replace text "```xml".data []) "```".data [])) with
  | none => some []
  | some data =>
      data.points.mapM (fun pt => do
        let xs ← pt.1
        let x ← pyIntOfStr xs
        let ys ← pt.2
        let y ← pyIntOfStr ys
        return DrawOp.point x y data.phrase)

/-! ### Layout analysis and slicing

Modelled from the spec: `utils/layout_analyzer.py` (the LayoutClassifier,
Slicer and SliceFilter of spec §4.4–4.6) is not under `src/` — only the
README files describing it are.  The definitions below follow the spec's
words: regions partition the page into single/double bands; inside a
band, slices are minimal bounding rectangles of vertical-gap-separated
groups of the elements assigned to each column; an element crossing the
midline of a double band becomes its own slice interleaved at its
vertical position, with left/right slicing resuming below it; the filter
drops slices whose width or height is at or below 15 px. -/

/-- Minimal bounding rectangle of two boxes. -/
def boxUnion (a b : Box) : Box :=
  ⟨min a.x1 b.x1, min a.y1 b.y1, max a.x2 b.x2, max a.y2 b.y2⟩

/-- Positive-area (interior) overlap of two boxes. -/
def strictOverlap (a b : Box) : Prop :=
  a.x1 < b.x2 ∧ b.x1 < a.x2 ∧ a.y1 < b.y2 ∧ b.y1 < a.y2

/-- `a` precedes `b` in reading order geometrically: `a` lies entirely
above `b`, or entirely to its left. -/
def readingOrd (a b : Box) : Prop :=
  a.y2 ≤ b.y1 ∨ a.x2 ≤ b.x1

/-- Comparison by top edge, used to order elements for grouping. -/
def byY1 : Box → Box → Prop := fun a b => a.y1 ≤ b.y1

instance : DecidableRel byY1 := fun a b => Int.decLe a.y1 b.y1

instance : IsTotal Box byY1 := ⟨fun a b => Int.le_total a.y1 b.y1⟩

instance : IsTrans Box byY1 := ⟨fun _ _ _ h h' => le_trans h h'⟩

/-- Sort boxes by their top edge. -/
def sortY1 (l : List Box) : List Box :=
  l.insertionSort byY1

/-- Containment of a box in a horizontal range. -/
def inXRange (xL xR : Int) (bx : Box) : Bool :=
  decide (xL ≤ bx.x1) && decide (bx.x2 ≤ xR)

/-- Containment of a box in a vertical window. -/
def inYWindow (yT yB : Int) (bx : Box) : Bool :=
  decide (yT ≤ bx.y1) && decide (bx.y2 ≤ yB)

/-- The box spans the midline `xM` by more than `margin` on both sides. -/
def crossesMid (xM margin : Int) (bx : Box) : Bool :=
  decide (bx.x1 + margin < xM) && decide (xM < bx.x2 - margin)

/-- Grouping loop: grow the current group while the next (top-sorted)
element starts within `gap` of the group's bottom, else emit the group's
bounding box and start a new group. -/
def groupGo (gap : Int) (cur : Box) : List Box → List Box
  | [] => [cur]
  | e :: rest =>
      if cur.y2 + gap < e.y1 then cur :: groupGo gap e rest
      else groupGo gap (boxUnion cur e) rest

/-- Minimal bounding rectangles of the contiguous vertical groups of a
top-sorted element list (groups separated by a vertical gap above the
threshold become separate slices). -/
def groupBoxes (gap : Int) : List Box → List Box
  | [] => []
  | e :: rest => groupGo gap e rest

/-- Slices of one left/right column pair restricted to the vertical
window `[a, b]`: left-column groups first, then right-column groups. -/
def columnSlices (gap xL xM xR a b : Int) (elems : List Box) : List Box :=
  groupBoxes gap (sortY1 (elems.filter (fun e => inXRange xL xM e && inYWindow a b e))) ++
  groupBoxes gap (sortY1 (elems.filter (fun e => inXRange xM xR e && inYWindow a b e)))

/-- The midline-crossing elements of a double band, sorted by top edge. -/
def crossElems (xM margin yT yB : Int) (elems : List Box) : List Box :=
  sortY1 (elems.filter (fun e => crossesMid xM margin e && inYWindow yT yB e))

/-- Double-band slicing: walk the crossing elements top to bottom with a
cursor; each crossing element becomes its own slice at its bounding box,
preceded by the left/right column slices of the sub-band above it, with
left/right slicing resuming below it.  A crossing element overlapping the
already-emitted region is skipped. -/
def sliceDoubleAux (gap xL xM xR yB : Int) (elems : List Box) :
    List Box → Int → List Box
  | [], cur => columnSlices gap xL xM xR cur yB elems
  | c :: rest, cur =>
      if c.y1 < cur then sliceDoubleAux gap xL xM xR yB elems rest cur
      else columnSlices gap xL xM xR cur c.y1 elems ++
           c :: sliceDoubleAux gap xL xM xR yB elems rest c.y2

/-- A column region band of the page (spec §4.4): a full-width single
band or a double band split at midline `xM`. -/
inductive Band where
  | single (xL xR yT yB : Int)
  | double (xL xM xR yT yB : Int)

/-- Top edge of a band. -/
def bandYT : Band → Int
  | .single _ _ t _ => t
  | .double _ _ _ t _ => t

/-- Bottom edge of a band. -/
def bandYB : Band → Int
  | .single _ _ _ b => b
  | .double _ _ _ _ b => b

/-- Slices of one band in reading order. -/
def sliceBand (gap margin : Int) (elems : List Box) : Band → List Box
  | .single xL xR yT yB =>
      groupBoxes gap (sortY1 (elems.filter (fun e => inXRange xL xR e && inYWindow yT yB e)))
  | .double xL xM xR yT yB =>
      sliceDoubleAux gap xL xM xR yB elems (crossElems xM margin yT yB elems) yT

/-- Slices of the whole page: bands top to bottom. -/
def slicePage (gap margin : Int) (elems : List Box) : List Band → List Box
  | [] => []
  | b :: bs => sliceBand gap margin elems b ++ slicePage gap margin elems bs

/-- A final page slice (spec §3). -/
structure Slice where
  page_index : Nat
  order_index : Nat
  bbox : Box
deriving DecidableEq

/-- Attach the page index and a monotonically increasing `order_index`
to the produced slice boxes. -/
def mkSlices (p : Nat) : Nat → List Box → List Slice
  | _, [] => []
  | i, b :: bs => ⟨p, i, b⟩ :: mkSlices p (i + 1) bs

/-- Width of a slice in pixels. -/
def sliceW (s : Slice) : Int := s.bbox.x2 - s.bbox.x1

/-- Height of a slice in pixels. -/
def sliceH (s : Slice) : Int := s.bbox.y2 - s.bbox.y1

/-- The degenerate-slice threshold at the working DPI (spec: 15 px). -/
def SLICE_THRESHOLD : Int := 15

/-- Modelled from the spec: the SliceFilter of §4.6 (code not under
`src/`) — drop any slice whose width or height is at or below the 15 px
threshold, keeping the rest unchanged and in order. -/
def sliceFilter (l : List Slice) : List Slice :=
  l.filter (fun s => decide (SLICE_THRESHOLD < sliceW s) && decide (SLICE_THRESHOLD < sliceH s))

/-- The layout pipeline from classified bands to filtered slices. -/
def pipelineSlices (p : Nat) (gap margin : Int) (bands : List Band) (elems : List Box) :
    List Slice :=
  sliceFilter (mkSlices p 0 (slicePage gap margin elems bands))

/-! ### Vector-graphic clustering

Modelled from the spec: `utils/pdf_bbox_extractor.py` (the
VectorGraphicClusterer of spec §4.3) is not under `src/`.  Following the
spec's words: fixed windows are scanned across the page; when the
`raw_line`/`image` elements intersecting a window reach the density
threshold they are merged, together with all such elements transitively
touching already-merged ones, into one `vector_graphic` element whose
bounding box is the union of its members. -/

/-- Element kinds (spec §3). -/
inductive EKind where
  | text
  | image
  | table
  | vector_graphic
  | raw_line
deriving DecidableEq

/-- A typed page element. -/
structure Elem where
  box : Box
  kind : EKind
deriving DecidableEq

/-- Only `raw_line` and `image` elements participate in clustering. -/
def clusterable (e : Elem) : Bool :=
  match e.kind with
  | .raw_line => true
  | .image => true
  | _ => false

/-- Closed-box intersection (touching counts). -/
def boxTouch (a b : Box) : Bool :=
  decide (a.x1 ≤ b.x2) && decide (b.x1 ≤ a.x2) &&
  decide (a.y1 ≤ b.y2) && decide (b.y1 ≤ a.y2)

/-- Number of clusterable elements intersecting a window. -/
def denseCount (es : List Elem) (w : Box) : Nat :=
  (es.filter (fun e => clusterable e && boxTouch e.box w)).length

/-- An element seeding a merge: clusterable and intersecting some window
whose clusterable population reaches the density threshold. -/
def isSeed (wins : List Box) (thr : Nat) (es : List Elem) (e : Elem) : Bool :=
  clusterable e && wins.any (fun w => boxTouch e.box w && decide (thr ≤ denseCount es w))

/-- All seed elements. -/
def seeds (wins : List Box) (thr : Nat) (es : List Elem) : List Elem :=
  es.filter (isSeed wins thr es)

/-- One step of connected-component growth: clusterable elements already
merged or touching a merged element. -/
def growStep (es M : List Elem) : List Elem :=
  es.filter (fun e => clusterable e && (decide (e ∈ M) || M.any (fun m => boxTouch e.box m.box)))

/-- Iterated growth. -/
def growIter (es : List Elem) : Nat → List Elem → List Elem
  | 0, M => M
  | n + 1, M => growIter es n (growStep es M)

/-- The merged element set: seeds grown to (at most) `es.length` rounds,
enough to reach the transitive closure. -/
def mergedSet (wins : List Box) (thr : Nat) (es : List Elem) : List Elem :=
  growIter es es.length (seeds wins thr es)

/-- One round of component extraction: the pool elements touching the
current frontier, and the remaining pool. -/
def compGrow : Nat → List Elem → List Elem → (List Elem × List Elem)
  | 0, _, pool => ([], pool)
  | fuel + 1, frontier, pool =>
      let newly := pool.filter (fun e => frontier.any (fun m => boxTouch e.box m.box))
      match newly with
      | [] => ([], pool)
      | _ =>
          let rest := pool.filter (fun e => !(decide (e ∈ newly)))
          let p := compGrow fuel newly rest
          (newly ++ p.1, p.2)

/-- Partition the merged set into touching-connected components. -/
def componentsGo : Nat → List Elem → List (List Elem)
  | 0, _ => []
  | _, [] => []
  | fuel + 1, e :: rest =>
      let p := compGrow rest.length [e] rest
      (e :: p.1) :: componentsGo fuel p.2

/-- Connected components of the merged set. -/
def components (l : List Elem) : List (List Elem) :=
  componentsGo l.length l

/-- Union of the boxes of a component. -/
def unionBoxOf : List Elem → Box
  | [] => ⟨0, 0, 0, 0⟩
  | e :: rest => rest.foldl (fun b m => boxUnion b m.box) e.box

/-- A component collapsed into one synthetic `vector_graphic` element. -/
def toGraphic (comp : List Elem) : Elem :=
  ⟨unionBoxOf comp, .vector_graphic⟩

/-- The VectorGraphicClusterer: elements not captured by a dense window
keep their original kind; each connected component of the merged set
becomes a single `vector_graphic` element. -/
def cluster (wins : List Box) (thr : Nat) (es : List Elem) : List Elem :=
  es.filter (fun e => !(decide (e ∈ mergedSet wins thr es))) ++
  (components (mergedSet wins thr es)).map toGraphic

/-- The fixed 30×30 px scan windows over a page (spec §4.3). -/
def pageWindows (w h : Int) : List Box :=
  (List.range ((w.toNat + 29) / 30)).flatMap (fun i =>
    (List.range ((h.toNat + 29) / 30)).map (fun j =>
      ⟨30 * (i : Int), 30 * (j : Int), 30 * (i : Int) + 30, 30 * (j : Int) + 30⟩))

/-! ### Page orchestration

Modelled from the spec: the PageOrchestrator (spec §4.7, §5) is not under
`src/`.  The model call is retried a fixed number of times; exhausting
the retries leaves the page with an empty model-element set and status
`degraded` (not `Failed`); only a page whose raster image cannot be
loaded is `Failed`, and the document fails only when no page is valid. -/

/-- Transient failures of the outbound model call. -/
inductive TransErr where
  | timeout
  | rateLimit
  | malformedEmpty
deriving DecidableEq

/-- Per-page terminal status. -/
inductive PageStatus where
  | success
  | degraded
  | failed
deriving DecidableEq

/-- The retry policy value object (spec §9). -/
structure RetryPolicy where
  max_attempts : Nat
  delay : Nat

/-- Attempts `i, i+1, ..., i+n`: first success wins, otherwise the last
error is returned. -/
def retryGo (call : Nat → Except TransErr (List Elem)) (i : Nat) :
    Nat → Except TransErr (List Elem)
  | 0 => call i
  | n + 1 =>
      match call i with
      | .ok a => .ok a
      | .error _ => retryGo call (i + 1) n

/-- Call with retry under a policy (`max_attempts` total attempts). -/
def callWithRetry (policy : RetryPolicy) (call : Nat → Except TransErr (List Elem)) :
    Except TransErr (List Elem) :=
  retryGo call 0 (policy.max_attempts - 1)

/-- Result of one page pipeline run. -/
structure PageResult where
  elements : List Elem
  status : PageStatus
deriving DecidableEq

/-- Run one page: an unloadable raster fails the page; an exhausted model
call degrades it (empty model-element set); otherwise it succeeds. -/
def runPage (policy : RetryPolicy) (imageOk : Bool)
    (call : Nat → Except TransErr (List Elem)) : PageResult :=
  if !imageOk then ⟨[], .failed⟩
  else
    match callWithRetry policy call with
    | .ok els => ⟨els, .success⟩
    | .error _ => ⟨[], .degraded⟩

/-- The document reports success unless no page at all is valid. -/
def documentSuccess (rs : List PageResult) : Bool :=
  rs.any (fun r => !(decide (r.status = .failed)))

/-! ### Concrete scenario inputs -/

/-- Scenario D response text (spec §8). -/
def scD : List Char :=
  "```json\n[\x7b\"bbox_2d\":[1,2,3,4],\"label\":\"x\"\x7d]\n```".data

/-- A truncated response: two complete records, then a cut-off third. -/
def scTrunc : List Char :=
  ("```json\n[\x7b\"bbox_2d\":[1,2,3,4],\"label\":\"x\"\x7d," ++
   "\x7b\"bbox_2d\":[5,6,7,8],\"label\":\"y\"\x7d,\x7b\"bb").data

/-- The record parsed from scenario D. -/
def rec1 : PyVal :=
  PyVal.vDict [("bbox_2d".data,
                PyVal.vList [PyVal.vInt 1, PyVal.vInt 2, PyVal.vInt 3, PyVal.vInt 4]),
               ("label".data, PyVal.vStr "x".data)]

/-- The second complete record of the truncated response. -/
def rec2 : PyVal :=
  PyVal.vDict [("bbox_2d".data,
                PyVal.vList [PyVal.vInt 5, PyVal.vInt 6, PyVal.vInt 7, PyVal.vInt 8]),
               ("label".data, PyVal.vStr "y".data)]

/-- Concrete input for the `parse_json` witness. -/
def c9wS : List Char := "intro\n```json\n[1]\n```\ntail".data

/-- Its lines before the fence. -/
def c9wPre : List (List Char) := ["intro".data]

/-- Its lines after the fence. -/
def c9wPost : List (List Char) := ["[1]".data, "```".data, "tail".data]

/-- Array prefix used in the repair witness (everything before the final
record terminator). -/
def c1wB : List Char := "[\x7b\"label\":\"x".data

/-- Truncated garbage after the last complete record. -/
def c1wTail : List Char := ",\x7b\"la".data

/-- The value recovered after the repair in the witness. -/
def c1wVal : PyVal :=
  PyVal.vList [PyVal.vDict [("label".data, PyVal.vStr "x".data)]]

end PdfAgent

namespace PdfAgent

/-! ## Theorems -/

/-! ### Helper lemmas -/

theorem retryGo_error (call : Nat → Except TransErr (List Elem)) :
    ∀ n i, (∀ k, i ≤ k → k ≤ i + n → ∃ e, call k = .error e) →
      ∃ e, retryGo call i n = .error e := by
  intro n
  induction n with
  | zero => intro i h; simpa using h i le_rfl (by omega)
  | succ n ih =>
    intro i h
    obtain ⟨e, he⟩ := h i le_rfl (by omega)
    unfold retryGo
    rw [he]
    exact ih (i + 1) (fun k hk1 hk2 => h k (by omega) (by omega))

theorem fenceScan_cons (l : List Char) (ls : List (List Char)) :
    fenceScan (l :: ls) = if l = jsonFence then some ls else fenceScan ls := rfl

theorem fenceScan_eq_none (ls : List (List Char)) (h : ∀ l ∈ ls, l ≠ jsonFence) :
    fenceScan ls = none := by
  induction ls with
  | nil => rfl
  | cons l ls ih =>
    rw [fenceScan_cons, if_neg (h l (List.mem_cons_self l ls))]
    exact ih (fun x hx => h x (List.mem_cons_of_mem l hx))

theorem fenceScan_append (pre post : List (List Char)) (h : jsonFence ∉ pre) :
    fenceScan (pre ++ jsonFence :: post) = some post := by
  induction pre with
  | nil =>
    rw [List.nil_append, fenceScan_cons, if_pos rfl]
  | cons l ls ih =>
    rw [List.cons_append, fenceScan_cons,
      if_neg (fun hl : l = jsonFence => h (by rw [hl]; exact List.mem_cons_self _ _))]
    exact ih (fun hx => h (List.mem_cons_of_mem l hx))

theorem findSplit_eq_none (pat : List Char) :
    ∀ cs, findSplit pat cs = none → ∀ a b, cs ≠ a ++ pat ++ b := by
  intro cs
  induction cs with
  | nil =>
    intro h a b hab
    obtain ⟨hap, hb⟩ := List.append_eq_nil.mp hab.symm
    obtain ⟨ha, hpat⟩ := List.append_eq_nil.mp hap
    unfold findSplit at h
    rw [if_pos (by rw [hpat]; rfl)] at h
    exact Option.noConfusion h
  | cons c cs ih =>
    intro h a b hab
    unfold findSplit at h
    by_cases hp : pat.isPrefixOf (c :: cs) = true
    · rw [if_pos hp] at h
      exact Option.noConfusion h
    · rw [if_neg hp] at h
      have hn : findSplit pat cs = none := by
        cases hfs : findSplit pat cs with
        | none => rfl
        | some p => rw [hfs] at h; exact Option.noConfusion h
      cases a with
      | nil =>
        apply hp
        rw [List.isPrefixOf_iff_prefix]
        exact ⟨b, by simpa using hab.symm⟩
      | cons x a' =>
        have hx : c = x ∧ cs = a' ++ (pat ++ b) := by simpa using hab
        exact ih hn a' b (by simpa using hx.2)

theorem findSplit_eq_some (pat : List Char) :
    ∀ cs pre suf, findSplit pat cs = some (pre, suf) →
      cs = pre ++ pat ++ suf ∧ ∀ a b, cs = a ++ pat ++ b → pre.length ≤ a.length := by
  intro cs
  induction cs with
  | nil =>
    intro pre suf h
    unfold findSplit at h
    by_cases hp : pat.isPrefixOf ([] : List Char) = true
    · rw [if_pos hp] at h
      have hpat : pat = [] := List.prefix_nil.mp (List.isPrefixOf_iff_prefix.mp hp)
      injection h with h'
      rw [Prod.mk.injEq] at h'
      obtain ⟨h1, h2⟩ := h'
      subst h1
      subst h2
      exact ⟨by simp [hpat], fun a b _ => by simp⟩
    · rw [if_neg hp] at h
      exact Option.noConfusion h
  | cons c cs ih =>
    intro pre suf h
    unfold findSplit at h
    by_cases hp : pat.isPrefixOf (c :: cs) = true
    · rw [if_pos hp] at h
      injection h with h'
      rw [Prod.mk.injEq] at h'
      obtain ⟨h1, h2⟩ := h'
      subst h1
      subst h2
      obtain ⟨t, ht⟩ := List.isPrefixOf_iff_prefix.mp hp
      constructor
      · rw [← ht]
        simp [List.drop_left]
      · intro a b _
        simp
    · rw [if_neg hp] at h
      cases hfs : findSplit pat cs with
      | none => rw [hfs] at h; exact Option.noConfusion h
      | some p =>
        obtain ⟨p1, p2⟩ := p
        rw [hfs] at h
        injection h with h'
        rw [Prod.mk.injEq] at h'
        obtain ⟨h1, h2⟩ := h'
        subst h1
        subst h2
        obtain ⟨hdec, hmin⟩ := ih p1 p2 hfs
        constructor
        · simp only [List.cons_append]
          rw [← hdec]
        · intro a b hab
          cases a with
          | nil =>
            exfalso
            apply hp
            rw [List.isPrefixOf_iff_prefix]
            exact ⟨b, by simpa using hab.symm⟩
          | cons x a' =>
            have hx : c = x ∧ cs = a' ++ (pat ++ b) := by simpa using hab
            have := hmin a' b (by simpa using hx.2)
            simp only [List.length_cons]
            omega

theorem lastHit_eq_some_of (p : Nat → Bool) (n m : Nat) (hm : p m = true) (hlt : m < n)
    (hmax : ∀ k, m < k → k < n → p k = false) : lastHit p n = some m := by
  induction n with
  | zero => omega
  | succ n ih =>
    unfold lastHit
    by_cases h : p n = true
    · have hmn : m = n := by
        rcases Nat.lt_succ_iff_lt_or_eq.mp hlt with h' | h'
        · have := hmax n h' (Nat.lt_succ_self n)
          rw [this] at h
          exact absurd h (by simp)
        · exact h'
      rw [if_pos h, hmn]
    · have hb : p n = false := by
        cases hpn : p n with
        | false => rfl
        | true => exact absurd hpn h
      have hmn : m < n := by
        rcases Nat.lt_succ_iff_lt_or_eq.mp hlt with h' | h'
        · exact h'
        · rw [h'] at hm; rw [hm] at hb; exact absurd hb (by simp)
      rw [if_neg h]
      exact ih hmn (fun k hk1 hk2 => hmax k hk1 (Nat.lt_succ_of_lt hk2))

theorem py_rfind_at (B tail : List Char) (h : hasSub recEnd tail = false) :
    py_rfind recEnd (B ++ recEnd ++ tail) = (B.length : Int) := by
  have hsub : ∀ i, recEnd.isPrefixOf (tail.drop i) = false := by
    intro i
    by_cases hi : i < tail.length + 1
    · have := h
      unfold hasSub at this
      rw [List.any_eq_false] at this
      have hx := this i (List.mem_range.mpr hi)
      cases hb : recEnd.isPrefixOf (tail.drop i) with
      | false => rfl
      | true => exact absurd (List.isPrefixOf_iff_prefix.mp hb) (by simpa using hx)
    · have hdrop : tail.drop i = [] := List.drop_eq_nil_of_le (by omega)
      rw [hdrop]
      rfl
  have hlen : (B ++ recEnd ++ tail).length = B.length + 2 + tail.length := by
    simp [recEnd]
    omega
  unfold py_rfind
  rw [lastHit_eq_some_of _ _ B.length ?hit ?lt ?max]
  case hit =>
    have hdrop : (B ++ recEnd ++ tail).drop B.length = recEnd ++ tail := by
      rw [List.append_assoc]
      have := @List.drop_append Char B (recEnd ++ tail) 0
      simp at this
      simp [this]
    rw [hdrop]
    rw [List.isPrefixOf_iff_prefix]
    exact ⟨tail, rfl⟩
  case lt => omega
  case max =>
    intro k hk1 hk2
    rw [hlen] at hk2
    by_cases hkk : k = B.length + 1
    · subst hkk
      have hdrop : (B ++ recEnd ++ tail).drop (B.length + 1) = '\x7d' :: tail := by
        rw [List.append_assoc]
        have := @List.drop_append Char B (recEnd ++ tail) 1
        simp [recEnd] at this
        simp [recEnd, this]
      rw [hdrop]
      rfl
    · have hk3 : B.length + 2 ≤ k := by omega
      have hdrop : (B ++ recEnd ++ tail).drop k = tail.drop (k - B.length - 2) := by
        have h2 : k = (B ++ recEnd).length + (k - B.length - 2) := by
          simp [recEnd]
          omega
        conv_lhs => rw [h2]
        rw [List.drop_append]
      rw [hdrop]
      exact hsub (k - B.length - 2)

theorem pyRepair_append (B tail : List Char) (h : hasSub recEnd tail = false) :
    pyRepair (B ++ recEnd ++ tail) = B ++ recEnd ++ [']'] := by
  unfold pyRepair
  rw [py_rfind_at B tail h]
  have ht : ((B.length : Int) + 2).toNat = B.length + 2 := by omega
  rw [ht]
  have htake : (B ++ recEnd ++ tail).take (B.length + 2) = B ++ recEnd := by
    rw [List.append_assoc]
    have := @List.take_append Char B (recEnd ++ tail) 2
    rw [this]
    simp [recEnd]
  rw [htake, List.append_assoc]

/-! ### Claim C9 -/

/-- Claim C9: `parse_json` is the identity on every input with no line
exactly equal to `"```json"`; when such a line exists, it returns exactly
the text between the first such line and the next occurrence of `"```"`
in the joined remainder (all of the remainder when no closing fence
occurs), discarding everything before the fence line and from the closing
fence onward. -/
theorem c9_parse_json_spec (s : List Char) :
    ((∀ l ∈ py_splitlines s, l ≠ jsonFence) → parse_json s = s)
  ∧ (∀ pre post, py_splitlines s = pre ++ jsonFence :: post → jsonFence ∉ pre →
      ((∀ a b, joinNL post ≠ a ++ backFence ++ b) ∧ parse_json s = joinNL post)
    ∨ (∃ suf, joinNL post = parse_json s ++ backFence ++ suf ∧
        ∀ a b, joinNL post = a ++ backFence ++ b → (parse_json s).length ≤ a.length)) := by
  constructor
  · intro h
    unfold parse_json
    rw [fenceScan_eq_none _ h]
  · intro pre post hdec hpre
    have hp : parse_json s = py_split_first backFence (joinNL post) := by
      unfold parse_json
      rw [hdec, fenceScan_append pre post hpre]
    rw [hp]
    unfold py_split_first
    cases hfs : findSplit backFence (joinNL post) with
    | none => exact Or.inl ⟨findSplit_eq_none backFence _ hfs, rfl⟩
    | some p =>
      obtain ⟨p1, p2⟩ := p
      obtain ⟨hd, hm⟩ := findSplit_eq_some backFence _ p1 p2 hfs
      exact Or.inr ⟨p2, hd, hm⟩

/-- Witness for `c9_parse_json_spec` on a concrete fenced input. -/
theorem c9_parse_json_spec_witness :
    (py_splitlines c9wS = c9wPre ++ jsonFence :: c9wPost ∧ jsonFence ∉ c9wPre) ∧
    (((∀ a b, joinNL c9wPost ≠ a ++ backFence ++ b) ∧ parse_json c9wS = joinNL c9wPost)
     ∨ (∃ suf, joinNL c9wPost = parse_json c9wS ++ backFence ++ suf ∧
         ∀ a b, joinNL c9wPost = a ++ backFence ++ b → (parse_json c9wS).length ≤ a.length)) :=
  ⟨⟨by decide, by decide⟩,
   (c9_parse_json_spec c9wS).2 c9wPre c9wPost (by decide) (by decide)⟩

/-! ### Claim C1 -/

/-- Claim C1: the scenario D response parses (after fence stripping) to
exactly one record with bbox `[1,2,3,4]`; the lenient repair truncates
any text whose tail after the last complete record (`recEnd`-terminated)
contains no further record terminator down to that record and closes the
array; a response failing the strict parse whose repaired text parses
recovers exactly the retained complete records; and the concrete
truncated response yields exactly its two complete records. -/
theorem c1_parse_and_repair :
    extract_boxes scD = some (PyVal.vList [rec1])
  ∧ (∀ B tail : List Char, hasSub recEnd tail = false →
      pyRepair (B ++ recEnd ++ tail) = B ++ recEnd ++ [']'])
  ∧ (∀ body junk : List Char, ∀ v : PyVal,
      literal_eval (body ++ recEnd ++ [']']) = some v →
      literal_eval (body ++ recEnd ++ junk) = none →
      hasSub recEnd junk = false →
      literal_or_repair (body ++ recEnd ++ junk) = some v)
  ∧ extract_boxes scTrunc = some (PyVal.vList [rec1, rec2]) := by
  refine ⟨rfl, pyRepair_append, ?_, rfl⟩
  intro body junk v h1 h2 h3
  unfold literal_or_repair
  rw [h2, pyRepair_append body junk h3]
  exact h1

/-- Witness for `c1_parse_and_repair` on a concrete truncated array. -/
theorem c1_parse_and_repair_witness :
    (hasSub recEnd c1wTail = false ∧
       pyRepair (c1wB ++ recEnd ++ c1wTail) = c1wB ++ recEnd ++ [']']) ∧
    ((literal_eval (c1wB ++ recEnd ++ [']']) = some c1wVal ∧
        literal_eval (c1wB ++ recEnd ++ c1wTail) = none ∧
        hasSub recEnd c1wTail = false) ∧
      literal_or_repair (c1wB ++ recEnd ++ c1wTail) = some c1wVal) :=
  ⟨⟨by decide, c1_parse_and_repair.2.1 c1wB c1wTail (by decide)⟩,
   ⟨⟨by rfl, by rfl, by decide⟩,
    c1_parse_and_repair.2.2.1 c1wB c1wTail c1wVal (by rfl) (by rfl) (by decide)⟩⟩

/-! ### Claim C2 -/

/-- Claim C2 counterexample: the response `"hello"` fails the strict
parse and still fails after the lenient repair, yet the parsing boundary
does not yield an empty element list — the second `ast.literal_eval` is
unguarded, so the exception (modelled `none`) escapes. -/
theorem c2_counterexample :
    literal_eval (parse_json "hello".data) = none ∧
    literal_eval (pyRepair (parse_json "hello".data)) = none ∧
    extract_boxes "hello".data ≠ some (PyVal.vList []) := by
  refine ⟨rfl, rfl, ?_⟩
  intro h
  have hx : extract_boxes "hello".data = none := rfl
  rw [hx] at h
  exact Option.noConfusion h

/-- Claim C2 (amended): a model response that fails the strict parse and
still fails to parse after the lenient repair causes the parse failure to
escape the parsing boundary of `plot_bounding_boxes` (an uncaught
exception, modelled `none`) — it does not yield an empty element list. -/
theorem c2_double_failure_escapes (cs : List Char)
    (h1 : literal_eval (parse_json cs) = none)
    (h2 : literal_eval (pyRepair (parse_json cs)) = none) :
    extract_boxes cs = none := by
  unfold extract_boxes literal_or_repair
  rw [h1, h2]

/-- Witness for `c2_double_failure_escapes` at the input `"hello"`. -/
theorem c2_double_failure_escapes_witness :
    (literal_eval (parse_json "hello".data) = none ∧
     literal_eval (pyRepair (parse_json "hello".data)) = none) ∧
    extract_boxes "hello".data = none :=
  ⟨⟨rfl, rfl⟩, c2_double_failure_escapes "hello".data rfl rfl⟩

/-! ### Claim C3 -/

/-- Claim C3 counterexample: ingestion in `plot_bounding_boxes` does not
establish the claimed invariant.  A degenerate model box `[0,0,0,0]`
(with input and page dimensions 8×8) ingests to a box with `x1 = x2`,
violating `x1 < x2`; and the box `[2,2,20,20]` ingests to coordinates
reaching 20, beyond the page bound 8 — no clamping happens. -/
theorem c3_counterexample :
    (plot_bounding_boxes_ingest 8 8 8 8 0 0 0 0 = ⟨0, 0, 0, 0⟩ ∧
      ¬((plot_bounding_boxes_ingest 8 8 8 8 0 0 0 0).x1 <
         (plot_bounding_boxes_ingest 8 8 8 8 0 0 0 0).x2)) ∧
    (plot_bounding_boxes_ingest 8 8 8 8 2 2 20 20 = ⟨2, 2, 20, 20⟩ ∧
      8 < (plot_bounding_boxes_ingest 8 8 8 8 2 2 20 20).x2) := by
  decide

/-- Claim C3 (amended): after ingestion every element box satisfies the
non-strict ordering `x1 ≤ x2 ∧ y1 ≤ y2` — inverted coordinate pairs are
swapped — but degenerate (zero-extent) boxes are kept and coordinates are
not clamped to the page bounds. -/
theorem c3_ingest_ordered (iw ih w h b0 b1 b2 b3 : Int) :
    (plot_bounding_boxes_ingest iw ih w h b0 b1 b2 b3).x1 ≤
      (plot_bounding_boxes_ingest iw ih w h b0 b1 b2 b3).x2 ∧
    (plot_bounding_boxes_ingest iw ih w h b0 b1 b2 b3).y1 ≤
      (plot_bounding_boxes_ingest iw ih w h b0 b1 b2 b3).y2 := by
  unfold plot_bounding_boxes_ingest
  dsimp only
  constructor <;> split <;> omega

/-! ### Claim C6 -/

/-- Claim C6: the SliceFilter keeps exactly the slices whose width and
height both exceed the 15 px threshold, preserves the relative order of
the retained slices (a sublist of the input), drops the 10×13 slice
`(10,10,20,23)` and retains the 20×30 slice `(10,10,30,40)`. -/
theorem c6_slice_filter :
    (∀ (l : List Slice) (s : Slice),
        s ∈ sliceFilter l ↔ s ∈ l ∧ ¬(sliceW s ≤ 15 ∨ sliceH s ≤ 15))
  ∧ (∀ l : List Slice, List.Sublist (sliceFilter l) l)
  ∧ sliceFilter [⟨0, 0, ⟨10, 10, 20, 23⟩⟩, ⟨0, 1, ⟨10, 10, 30, 40⟩⟩] =
      [⟨0, 1, ⟨10, 10, 30, 40⟩⟩] := by
  refine ⟨fun l s => ?_, fun l => List.filter_sublist l, by decide⟩
  simp only [sliceFilter, List.mem_filter, SLICE_THRESHOLD, Bool.and_eq_true,
    decide_eq_true_eq, not_or, not_le]

/-! ### Claim C8 -/

/-- Claim C8: if every model-call attempt up to the fixed maximum fails
with a transient error, the retries are exhausted, the page proceeds with
an empty model-element set and status `degraded` (not `failed`), and any
document containing that page still reports success. -/
theorem c8_retries_exhausted (policy : RetryPolicy)
    (call : Nat → Except TransErr (List Elem))
    (hmax : 1 ≤ policy.max_attempts)
    (hfail : ∀ i, i < policy.max_attempts → ∃ e, call i = .error e) :
    runPage policy true call = ⟨[], .degraded⟩ ∧
    ∀ before after : List PageResult,
      documentSuccess (before ++ runPage policy true call :: after) = true := by
  have herr : ∃ e, callWithRetry policy call = .error e := by
    unfold callWithRetry
    exact retryGo_error call (policy.max_attempts - 1) 0
      (fun k hk1 hk2 => hfail k (by omega))
  obtain ⟨e, he⟩ := herr
  have hrun : runPage policy true call = ⟨[], .degraded⟩ := by
    unfold runPage
    rw [he]
    rfl
  refine ⟨hrun, fun before after => ?_⟩
  rw [hrun]
  unfold documentSuccess
  rw [List.any_eq_true]
  exact ⟨⟨[], .degraded⟩, by simp, by decide⟩

/-- Witness for `c8_retries_exhausted`: three consecutive timeouts under
a 3-attempt policy (scenario E). -/
theorem c8_retries_exhausted_witness :
    (1 ≤ (RetryPolicy.mk 3 2).max_attempts ∧
      ∀ i, i < (RetryPolicy.mk 3 2).max_attempts →
        ∃ e, (fun _ : Nat => (Except.error TransErr.timeout : Except TransErr (List Elem))) i =
          .error e) ∧
    (runPage (RetryPolicy.mk 3 2) true
        (fun _ => (Except.error TransErr.timeout : Except TransErr (List Elem))) =
       ⟨[], .degraded⟩ ∧
     ∀ before after : List PageResult,
       documentSuccess (before ++
         runPage (RetryPolicy.mk 3 2) true
           (fun _ => (Except.error TransErr.timeout : Except TransErr (List Elem))) :: after) =
         true) :=
  ⟨⟨by decide, fun i _ => ⟨TransErr.timeout, rfl⟩⟩,
   c8_retries_exhausted (RetryPolicy.mk 3 2) _ (by decide)
     (fun i _ => ⟨TransErr.timeout, rfl⟩)⟩

/-! ### Claim C7 -/

theorem growStep_mem (es M : List Elem) :
    ∀ e ∈ growStep es M, e ∈ es ∧ clusterable e = true := by
  intro e he
  obtain ⟨h1, h2⟩ := List.mem_filter.mp he
  rw [Bool.and_eq_true] at h2
  exact ⟨h1, h2.1⟩

theorem growIter_mem (es : List Elem) :
    ∀ (n : Nat) (X : List Elem), (∀ e ∈ X, e ∈ es ∧ clusterable e = true) →
      ∀ e ∈ growIter es n X, e ∈ es ∧ clusterable e = true := by
  intro n
  induction n with
  | zero => intro X hX e he; exact hX e he
  | succ n ih =>
    intro X hX e he
    exact ih (growStep es X) (growStep_mem es X) e he

theorem mem_growStep_self (es X : List Elem)
    (hX : ∀ e ∈ X, e ∈ es ∧ clusterable e = true) :
    ∀ e ∈ X, e ∈ growStep es X := by
  intro e he
  obtain ⟨h1, h2⟩ := hX e he
  refine List.mem_filter.mpr ⟨h1, ?_⟩
  rw [Bool.and_eq_true]
  refine ⟨h2, ?_⟩
  rw [Bool.or_eq_true]
  exact Or.inl (by simpa using he)

theorem mem_growIter_self (es : List Elem) :
    ∀ (n : Nat) (X : List Elem), (∀ e ∈ X, e ∈ es ∧ clusterable e = true) →
      ∀ e ∈ X, e ∈ growIter es n X := by
  intro n
  induction n with
  | zero => intro X _ e he; exact he
  | succ n ih =>
    intro X hX e he
    exact ih (growStep es X) (growStep_mem es X) e (mem_growStep_self es X hX e he)

theorem seeds_mem (wins : List Box) (thr : Nat) (es : List Elem) :
    ∀ e ∈ seeds wins thr es, e ∈ es ∧ clusterable e = true := by
  intro e he
  obtain ⟨h1, h2⟩ := List.mem_filter.mp he
  unfold isSeed at h2
  rw [Bool.and_eq_true] at h2
  exact ⟨h1, h2.1⟩

theorem seeds_subset_mergedSet (wins : List Box) (thr : Nat) (es : List Elem) :
    ∀ e ∈ seeds wins thr es, e ∈ mergedSet wins thr es := by
  intro e he
  exact mem_growIter_self es es.length (seeds wins thr es) (seeds_mem wins thr es) e he

theorem growStep_nil (es : List Elem) : growStep es [] = [] := by
  rw [growStep, List.filter_eq_nil_iff]
  intro e _
  simp

theorem growIter_nil (es : List Elem) : ∀ n, growIter es n [] = [] := by
  intro n
  induction n with
  | zero => rfl
  | succ n ih =>
    unfold growIter
    rw [growStep_nil]
    exact ih

theorem clusterable_toGraphic (comp : List Elem) : clusterable (toGraphic comp) = false := rfl

theorem cluster_of_seeds_nil (wins : List Box) (thr : Nat) (l : List Elem)
    (h : seeds wins thr l = []) : cluster wins thr l = l := by
  unfold cluster
  have hM : mergedSet wins thr l = [] := by
    unfold mergedSet
    rw [h]
    exact growIter_nil l l.length
  rw [hM]
  have hf : l.filter (fun e => !(decide (e ∈ ([] : List Elem)))) = l := by
    rw [List.filter_eq_self]
    intro a _
    simp
  rw [hf, show components ([] : List Elem) = [] from rfl, List.map_nil, List.append_nil]

theorem seeds_cluster_eq_nil (wins : List Box) (thr : Nat) (es : List Elem)
    (hthr : 0 < thr) : seeds wins thr (cluster wins thr es) = [] := by
  rw [seeds, List.filter_eq_nil_iff]
  intro e _ hseed
  rw [isSeed, Bool.and_eq_true, List.any_eq_true] at hseed
  obtain ⟨hecl, w, hw, hcond⟩ := hseed
  rw [Bool.and_eq_true, decide_eq_true_eq] at hcond
  obtain ⟨_, hdense⟩ := hcond
  -- the clusterable population of `w` in the output comes only from the
  -- surviving (unmerged) elements: synthetic graphics are not clusterable
  have hout : denseCount (cluster wins thr es) w =
      ((es.filter (fun x => !(decide (x ∈ mergedSet wins thr es)))).filter
        (fun x => clusterable x && boxTouch x.box w)).length := by
    unfold denseCount cluster
    rw [List.filter_append]
    have hg : (List.map toGraphic (components (mergedSet wins thr es))).filter
        (fun x => clusterable x && boxTouch x.box w) = [] := by
      rw [List.filter_eq_nil_iff]
      intro g hg hcond
      obtain ⟨comp, _, rfl⟩ := List.mem_map.mp hg
      rw [Bool.and_eq_true] at hcond
      rw [clusterable_toGraphic] at hcond
      exact Bool.false_ne_true hcond.1
    rw [hg, List.append_nil]
  rw [hout] at hdense
  -- the survivors' window population is nonempty, giving an unmerged
  -- clusterable element of a window that was already dense in the input
  have hne : ((es.filter (fun x => !(decide (x ∈ mergedSet wins thr es)))).filter
      (fun x => clusterable x && boxTouch x.box w)) ≠ [] := by
    intro hnil
    rw [hnil] at hdense
    simp at hdense
    omega
  obtain ⟨x, hx⟩ := List.exists_mem_of_ne_nil _ hne
  obtain ⟨hx1, hx2⟩ := List.mem_filter.mp hx
  obtain ⟨hxes, hxnm⟩ := List.mem_filter.mp hx1
  rw [Bool.and_eq_true] at hx2
  obtain ⟨hxcl, hxtw⟩ := hx2
  -- the window was dense in the input as well
  have hsubl : List.Sublist
      ((es.filter (fun x => !(decide (x ∈ mergedSet wins thr es)))).filter
        (fun x => clusterable x && boxTouch x.box w))
      (es.filter (fun x => clusterable x && boxTouch x.box w)) :=
    List.Sublist.filter _ (List.filter_sublist es)
  have hdense0 : thr ≤ denseCount es w := le_trans hdense hsubl.length_le
  -- hence x is a seed of the input, so it was merged: contradiction
  have hxseed : x ∈ seeds wins thr es := by
    refine List.mem_filter.mpr ⟨hxes, ?_⟩
    rw [isSeed, Bool.and_eq_true, List.any_eq_true]
    refine ⟨hxcl, w, hw, ?_⟩
    rw [Bool.and_eq_true, decide_eq_true_eq]
    exact ⟨hxtw, hdense0⟩
  have hxM : x ∈ mergedSet wins thr es := seeds_subset_mergedSet wins thr es x hxseed
  rw [Bool.not_eq_eq_eq_not] at hxnm
  simp at hxnm
  exact hxnm hxM

/-- Claim C7: the VectorGraphicClusterer is idempotent — applying it to
its own output performs no further merges, so two consecutive
applications equal a single one (for any window list, any positive
density threshold and any element set). -/
theorem c7_cluster_idempotent (wins : List Box) (thr : Nat) (es : List Elem)
    (hthr : 0 < thr) :
    cluster wins thr (cluster wins thr es) = cluster wins thr es :=
  cluster_of_seeds_nil wins thr (cluster wins thr es) (seeds_cluster_eq_nil wins thr es hthr)

/-- Witness for `c7_cluster_idempotent`: a dense group of raw lines on a
small page with the standard 30×30 windows and threshold 2. -/
theorem c7_cluster_idempotent_witness :
    0 < 2 ∧
    cluster (pageWindows 60 60) 2
        (cluster (pageWindows 60 60) 2
          [⟨⟨1, 1, 4, 4⟩, .raw_line⟩, ⟨⟨3, 3, 8, 8⟩, .raw_line⟩,
           ⟨⟨6, 2, 9, 9⟩, .image⟩, ⟨⟨40, 40, 55, 55⟩, .text⟩]) =
      cluster (pageWindows 60 60) 2
        [⟨⟨1, 1, 4, 4⟩, .raw_line⟩, ⟨⟨3, 3, 8, 8⟩, .raw_line⟩,
         ⟨⟨6, 2, 9, 9⟩, .image⟩, ⟨⟨40, 40, 55, 55⟩, .text⟩] :=
  ⟨by decide,
   c7_cluster_idempotent (pageWindows 60 60) 2
     [⟨⟨1, 1, 4, 4⟩, .raw_line⟩, ⟨⟨3, 3, 8, 8⟩, .raw_line⟩,
      ⟨⟨6, 2, 9, 9⟩, .image⟩, ⟨⟨40, 40, 55, 55⟩, .text⟩] (by decide)⟩

/-! ### Layout lemmas for Claims C4 and C5 -/

theorem groupGo_nil (gap : Int) (cur : Box) : groupGo gap cur [] = [cur] := rfl

theorem groupGo_cons (gap : Int) (cur e : Box) (rest : List Box) :
    groupGo gap cur (e :: rest) =
      if cur.y2 + gap < e.y1 then cur :: groupGo gap e rest
      else groupGo gap (boxUnion cur e) rest := rfl

theorem groupGo_pred (gap : Int) (P : Box → Prop)
    (hU : ∀ a b, P a → P b → P (boxUnion a b)) :
    ∀ (l : List Box) (cur : Box), P cur → (∀ e ∈ l, P e) →
      ∀ o ∈ groupGo gap cur l, P o := by
  intro l
  induction l with
  | nil =>
    intro cur hc _ o ho
    rw [groupGo_nil, List.mem_singleton] at ho
    rw [ho]
    exact hc
  | cons e rest ih =>
    intro cur hc hl o ho
    rw [groupGo_cons] at ho
    by_cases hs : cur.y2 + gap < e.y1
    · rw [if_pos hs] at ho
      rcases List.mem_cons.mp ho with h | h
      · rw [h]; exact hc
      · exact ih e (hl e (List.mem_cons_self e rest))
          (fun x hx => hl x (List.mem_cons_of_mem e hx)) o h
    · rw [if_neg hs] at ho
      exact ih (boxUnion cur e) (hU cur e hc (hl e (List.mem_cons_self e rest)))
        (fun x hx => hl x (List.mem_cons_of_mem e hx)) o ho

theorem groupBoxes_pred (gap : Int) (P : Box → Prop)
    (hU : ∀ a b, P a → P b → P (boxUnion a b)) (l : List Box)
    (hl : ∀ e ∈ l, P e) : ∀ o ∈ groupBoxes gap l, P o := by
  cases l with
  | nil => intro o ho; exact absurd ho (List.not_mem_nil o)
  | cons e rest =>
    exact groupGo_pred gap P hU rest e (hl e (List.mem_cons_self e rest))
      (fun x hx => hl x (List.mem_cons_of_mem e hx))

theorem groupGo_chain (gap : Int) (hgap : 0 ≤ gap) :
    ∀ (l : List Box) (cur : Box),
      l.Pairwise byY1 →
      (∀ e ∈ l, e.y1 ≤ e.y2) →
      cur.y1 ≤ cur.y2 →
      (∀ e ∈ l, cur.y1 ≤ e.y1) →
      (groupGo gap cur l).Pairwise (fun a b => a.y2 < b.y1) ∧
      (∀ o ∈ groupGo gap cur l, cur.y1 ≤ o.y1) := by
  intro l
  induction l with
  | nil =>
    intro cur _ _ hcwf _
    rw [groupGo_nil]
    exact ⟨List.pairwise_singleton _ _, fun o ho => by
      rw [List.mem_singleton] at ho; rw [ho]⟩
  | cons e rest ih =>
    intro cur hsort hwf hcwf hcle
    have hsort' := List.pairwise_cons.mp hsort
    have hewf : e.y1 ≤ e.y2 := hwf e (List.mem_cons_self e rest)
    have hrwf : ∀ x ∈ rest, x.y1 ≤ x.y2 :=
      fun x hx => hwf x (List.mem_cons_of_mem e hx)
    rw [groupGo_cons]
    by_cases hs : cur.y2 + gap < e.y1
    · rw [if_pos hs]
      obtain ⟨hp, hb⟩ := ih e hsort'.2 hrwf hewf hsort'.1
      constructor
      · rw [List.pairwise_cons]
        refine ⟨fun o ho => ?_, hp⟩
        have := hb o ho
        omega
      · intro o ho
        rcases List.mem_cons.mp ho with h | h
        · rw [h]
        · have h1 := hb o h
          have h2 := hcle e (List.mem_cons_self e rest)
          omega
    · rw [if_neg hs]
      have hcue : cur.y1 ≤ e.y1 := hcle e (List.mem_cons_self e rest)
      have hu1 : (boxUnion cur e).y1 = cur.y1 := by
        unfold boxUnion
        dsimp only
        omega
      have huwf : (boxUnion cur e).y1 ≤ (boxUnion cur e).y2 := by
        unfold boxUnion
        dsimp only
        omega
      obtain ⟨hp, hb⟩ := ih (boxUnion cur e) hsort'.2 hrwf huwf
        (fun x hx => by rw [hu1]; exact le_trans hcue ((hsort'.1 x hx : byY1 e x)))
      refine ⟨hp, fun o ho => ?_⟩
      have := hb o ho
      rw [hu1] at this
      exact this

theorem groupBoxes_chain (gap : Int) (hgap : 0 ≤ gap) (l : List Box)
    (hsort : l.Pairwise byY1) (hwf : ∀ e ∈ l, e.y1 ≤ e.y2) :
    (groupBoxes gap l).Pairwise (fun a b => a.y2 < b.y1) := by
  cases l with
  | nil => exact List.Pairwise.nil
  | cons e rest =>
    have hsort' := List.pairwise_cons.mp hsort
    exact (groupGo_chain gap hgap rest e hsort'.2
      (fun x hx => hwf x (List.mem_cons_of_mem e hx))
      (hwf e (List.mem_cons_self e rest)) hsort'.1).1

/-- Geometric containment of a slice in a column rectangle with a
vertical window, plus well-formedness. -/
def inRect (xl xr a b : Int) (o : Box) : Prop :=
  xl ≤ o.x1 ∧ o.x2 ≤ xr ∧ a ≤ o.y1 ∧ o.y2 ≤ b ∧ o.y1 ≤ o.y2

theorem inRect_union (xl xr a b : Int) (u v : Box)
    (hu : inRect xl xr a b u) (hv : inRect xl xr a b v) :
    inRect xl xr a b (boxUnion u v) := by
  unfold inRect boxUnion at *
  dsimp only
  omega

theorem sortY1_sorted (l : List Box) : (sortY1 l).Pairwise byY1 :=
  List.sorted_insertionSort byY1 l

theorem sortY1_mem (l : List Box) (x : Box) : x ∈ sortY1 l ↔ x ∈ l :=
  List.mem_insertionSort byY1

theorem colFilter_inRect (xl xr a b : Int) (elems : List Box)
    (hwf : ∀ e ∈ elems, e.y1 ≤ e.y2) :
    ∀ e ∈ sortY1 (elems.filter (fun e => inXRange xl xr e && inYWindow a b e)),
      inRect xl xr a b e := by
  intro e he
  rw [sortY1_mem, List.mem_filter] at he
  obtain ⟨he1, he2⟩ := he
  rw [Bool.and_eq_true] at he2
  obtain ⟨hx, hy⟩ := he2
  rw [inXRange, Bool.and_eq_true, decide_eq_true_eq, decide_eq_true_eq] at hx
  rw [inYWindow, Bool.and_eq_true, decide_eq_true_eq, decide_eq_true_eq] at hy
  exact ⟨hx.1, hx.2, hy.1, hy.2, hwf e he1⟩

theorem colGroup_facts (gap xl xr a b : Int) (elems : List Box)
    (hgap : 0 ≤ gap) (hwf : ∀ e ∈ elems, e.y1 ≤ e.y2) :
    (groupBoxes gap (sortY1 (elems.filter (fun e => inXRange xl xr e && inYWindow a b e)))).Pairwise
        (fun s t => s.y2 < t.y1) ∧
    ∀ o ∈ groupBoxes gap (sortY1 (elems.filter (fun e => inXRange xl xr e && inYWindow a b e))),
      inRect xl xr a b o := by
  constructor
  · exact groupBoxes_chain gap hgap _ (sortY1_sorted _)
      (fun e he => (colFilter_inRect xl xr a b elems hwf e he).2.2.2.2)
  · exact groupBoxes_pred gap _ (inRect_union xl xr a b) _
      (colFilter_inRect xl xr a b elems hwf)

theorem readingOrd_of_below {s t : Box} (h : s.y2 ≤ t.y1) : readingOrd s t := Or.inl h

theorem columnSlices_facts (gap xL xM xR a b : Int) (elems : List Box)
    (hgap : 0 ≤ gap) (hwf : ∀ e ∈ elems, e.y1 ≤ e.y2) :
    (columnSlices gap xL xM xR a b elems).Pairwise readingOrd ∧
    ∀ o ∈ columnSlices gap xL xM xR a b elems, a ≤ o.y1 ∧ o.y2 ≤ b ∧ o.y1 ≤ o.y2 := by
  obtain ⟨hpl, hbl⟩ := colGroup_facts gap xL xM a b elems hgap hwf
  obtain ⟨hpr, hbr⟩ := colGroup_facts gap xM xR a b elems hgap hwf
  constructor
  · rw [columnSlices, List.pairwise_append]
    refine ⟨hpl.imp (fun h => readingOrd_of_below (le_of_lt h)),
            hpr.imp (fun h => readingOrd_of_below (le_of_lt h)),
            fun o ho o' ho' => ?_⟩
    exact Or.inr (le_trans (hbl o ho).2.1 (hbr o' ho').1)
  · intro o ho
    rw [columnSlices, List.mem_append] at ho
    rcases ho with h | h
    · exact ⟨(hbl o h).2.2.1, (hbl o h).2.2.2.1, (hbl o h).2.2.2.2⟩
    · exact ⟨(hbr o h).2.2.1, (hbr o h).2.2.2.1, (hbr o h).2.2.2.2⟩

theorem sliceDoubleAux_facts (gap xL xM xR yB : Int) (elems : List Box)
    (hgap : 0 ≤ gap) (hwf : ∀ e ∈ elems, e.y1 ≤ e.y2) :
    ∀ (cl : List Box) (cur : Int),
      (∀ c ∈ cl, c.y1 ≤ c.y2 ∧ c.y2 ≤ yB) →
      (sliceDoubleAux gap xL xM xR yB elems cl cur).Pairwise readingOrd ∧
      ∀ o ∈ sliceDoubleAux gap xL xM xR yB elems cl cur,
        cur ≤ o.y1 ∧ o.y2 ≤ yB ∧ o.y1 ≤ o.y2 := by
  intro cl
  induction cl with
  | nil =>
    intro cur _
    unfold sliceDoubleAux
    exact columnSlices_facts gap xL xM xR cur yB elems hgap hwf
  | cons c rest ih =>
    intro cur hcl
    have hc := hcl c (List.mem_cons_self c rest)
    have hrest : ∀ x ∈ rest, x.y1 ≤ x.y2 ∧ x.y2 ≤ yB :=
      fun x hx => hcl x (List.mem_cons_of_mem c hx)
    unfold sliceDoubleAux
    by_cases hs : c.y1 < cur
    · rw [if_pos hs]
      exact ih cur hrest
    · rw [if_neg hs]
      obtain ⟨hbp, hbb⟩ := columnSlices_facts gap xL xM xR cur c.y1 elems hgap hwf
      obtain ⟨hap, hab⟩ := ih c.y2 hrest
      constructor
      · rw [List.pairwise_append]
        refine ⟨hbp, ?_, ?_⟩
        · rw [List.pairwise_cons]
          refine ⟨fun o ho => readingOrd_of_below ?_, hap⟩
          exact le_trans le_rfl (hab o ho).1
        · intro o ho o' ho'
          rcases List.mem_cons.mp ho' with h | h
          · rw [h]
            exact readingOrd_of_below (hbb o ho).2.1
          · refine readingOrd_of_below ?_
            have h1 := (hbb o ho).2.1
            have h2 := (hab o' h).1
            omega
      · intro o ho
        rw [List.mem_append] at ho
        rcases ho with h | h
        · have := hbb o h
          refine ⟨this.1, ?_, this.2.2⟩
          have := this.2.1
          omega
        · rcases List.mem_cons.mp h with h' | h'
          · rw [h']
            omega
          · have := hab o h'
            refine ⟨?_, this.2.1, this.2.2⟩
            omega

theorem crossElems_props (xM margin yT yB : Int) (elems : List Box)
    (hwf : ∀ e ∈ elems, e.y1 ≤ e.y2) :
    ∀ c ∈ crossElems xM margin yT yB elems, c.y1 ≤ c.y2 ∧ c.y2 ≤ yB := by
  intro c hc
  rw [crossElems, sortY1_mem, List.mem_filter] at hc
  obtain ⟨h1, h2⟩ := hc
  rw [Bool.and_eq_true] at h2
  have hy := h2.2
  rw [inYWindow, Bool.and_eq_true, decide_eq_true_eq, decide_eq_true_eq] at hy
  exact ⟨hwf c h1, hy.2⟩

theorem sliceBand_facts (gap margin : Int) (elems : List Box) (band : Band)
    (hgap : 0 ≤ gap) (hwf : ∀ e ∈ elems, e.y1 ≤ e.y2) :
    (sliceBand gap margin elems band).Pairwise readingOrd ∧
    ∀ o ∈ sliceBand gap margin elems band,
      bandYT band ≤ o.y1 ∧ o.y2 ≤ bandYB band := by
  cases band with
  | single xL xR yT yB =>
    obtain ⟨hp, hb⟩ := colGroup_facts gap xL xR yT yB elems hgap hwf
    exact ⟨hp.imp (fun h => readingOrd_of_below (le_of_lt h)),
           fun o ho => ⟨(hb o ho).2.2.1, (hb o ho).2.2.2.1⟩⟩
  | double xL xM xR yT yB =>
    obtain ⟨hp, hb⟩ := sliceDoubleAux_facts gap xL xM xR yB elems hgap hwf
      (crossElems xM margin yT yB elems) yT
      (crossElems_props xM margin yT yB elems hwf)
    exact ⟨hp, fun o ho => ⟨(hb o ho).1, (hb o ho).2.1⟩⟩

theorem slicePage_facts (gap margin : Int) (elems : List Box)
    (hgap : 0 ≤ gap) (hwf : ∀ e ∈ elems, e.y1 ≤ e.y2) :
    ∀ bands : List Band,
      bands.Pairwise (fun A B => bandYB A ≤ bandYT B) →
      (slicePage gap margin elems bands).Pairwise readingOrd ∧
      ∀ o ∈ slicePage gap margin elems bands,
        ∃ B ∈ bands, bandYT B ≤ o.y1 ∧ o.y2 ≤ bandYB B := by
  intro bands
  induction bands with
  | nil =>
    intro _
    exact ⟨List.Pairwise.nil, fun o ho => absurd ho (List.not_mem_nil o)⟩
  | cons b bs ih =>
    intro hbands
    have hbands' := List.pairwise_cons.mp hbands
    obtain ⟨hbp, hbb⟩ := sliceBand_facts gap margin elems b hgap hwf
    obtain ⟨hsp, hsb⟩ := ih hbands'.2
    constructor
    · rw [slicePage, List.pairwise_append]
      refine ⟨hbp, hsp, fun o ho o' ho' => ?_⟩
      obtain ⟨B, hB, hB1, _⟩ := hsb o' ho'
      refine readingOrd_of_below ?_
      have h1 := (hbb o ho).2
      have h2 := hbands'.1 B hB
      omega
    · intro o ho
      rw [slicePage, List.mem_append] at ho
      rcases ho with h | h
      · exact ⟨b, List.mem_cons_self b bs, hbb o h⟩
      · obtain ⟨B, hB, hprops⟩ := hsb o h
        exact ⟨B, List.mem_cons_of_mem b hB, hprops⟩

theorem mkSlices_mem (p : Nat) :
    ∀ (l : List Box) (i : Nat) (s : Slice), s ∈ mkSlices p i l →
      i ≤ s.order_index ∧ s.bbox ∈ l := by
  intro l
  induction l with
  | nil => intro i s hs; exact absurd hs (List.not_mem_nil s)
  | cons b bs ih =>
    intro i s hs
    rw [mkSlices] at hs
    rcases List.mem_cons.mp hs with h | h
    · rw [h]
      exact ⟨le_rfl, List.mem_cons_self b bs⟩
    · obtain ⟨h1, h2⟩ := ih (i + 1) s h
      exact ⟨by omega, List.mem_cons_of_mem b h2⟩

theorem mkSlices_pairwise (p : Nat) (R : Box → Box → Prop) :
    ∀ (l : List Box) (i : Nat), l.Pairwise R →
      (mkSlices p i l).Pairwise
        (fun s t => R s.bbox t.bbox ∧ s.order_index < t.order_index) := by
  intro l
  induction l with
  | nil => intro i _; exact List.Pairwise.nil
  | cons b bs ih =>
    intro i hl
    have hl' := List.pairwise_cons.mp hl
    rw [mkSlices, List.pairwise_cons]
    refine ⟨fun s hs => ?_, ih (i + 1) hl'.2⟩
    obtain ⟨h1, h2⟩ := mkSlices_mem p bs (i + 1) s hs
    exact ⟨hl'.1 s.bbox h2, by dsimp only; omega⟩

theorem readingOrd_not_overlap {s t : Box} (h : readingOrd s t) : ¬ strictOverlap s t := by
  intro hov
  unfold readingOrd at h
  unfold strictOverlap at hov
  rcases h with h | h <;> omega

/-! ### Claim C4 -/

/-- Claim C4: under well-formed inputs (non-negative grouping gap,
elements with ordered vertical extents, bands partitioning the page top
to bottom), the slices surviving the SliceFilter are pairwise
non-overlapping, every earlier slice precedes every later one
geometrically in reading order (entirely above, or entirely to the left —
which inside a double band puts the left column before the right), and
the `order_index` values are strictly increasing along that order. -/
theorem c4_slices_reading_order (p : Nat) (gap margin : Int) (bands : List Band)
    (elems : List Box)
    (hgap : 0 ≤ gap)
    (hwf : ∀ e ∈ elems, e.y1 ≤ e.y2)
    (hbands : bands.Pairwise (fun A B => bandYB A ≤ bandYT B)) :
    (pipelineSlices p gap margin bands elems).Pairwise
      (fun s t => readingOrd s.bbox t.bbox ∧ ¬ strictOverlap s.bbox t.bbox ∧
        s.order_index < t.order_index) := by
  have h1 := (slicePage_facts gap margin elems hgap hwf bands hbands).1
  have h2 := mkSlices_pairwise p readingOrd (slicePage gap margin elems bands) 0 h1
  have h3 : (mkSlices p 0 (slicePage gap margin elems bands)).Pairwise
      (fun s t => readingOrd s.bbox t.bbox ∧ ¬ strictOverlap s.bbox t.bbox ∧
        s.order_index < t.order_index) :=
    h2.imp (fun h => ⟨h.1, readingOrd_not_overlap h.1, h.2⟩)
  unfold pipelineSlices sliceFilter
  exact h3.sublist (List.filter_sublist _)

/-- Witness for `c4_slices_reading_order` on the scenario A page: a
full-width band above a double band with one element per column. -/
theorem c4_slices_reading_order_witness :
    ((0 : Int) ≤ 20 ∧
     (∀ e ∈ [Box.mk 0 0 800 50, Box.mk 0 60 400 500, Box.mk 420 60 800 500],
        e.y1 ≤ e.y2) ∧
     ([Band.single 0 800 0 50, Band.double 0 400 800 60 500].Pairwise
        (fun A B => bandYB A ≤ bandYT B))) ∧
    (pipelineSlices 1 20 10 [Band.single 0 800 0 50, Band.double 0 400 800 60 500]
        [Box.mk 0 0 800 50, Box.mk 0 60 400 500, Box.mk 420 60 800 500]).Pairwise
      (fun s t => readingOrd s.bbox t.bbox ∧ ¬ strictOverlap s.bbox t.bbox ∧
        s.order_index < t.order_index) :=
  ⟨⟨by decide, by decide, by decide⟩,
   c4_slices_reading_order 1 20 10 _ _ (by decide) (by decide) (by decide)⟩

/-! ### Claim C5 -/

theorem sliceDoubleAux_cross_mem (gap xL xM xR yB : Int) (elems : List Box) (e : Box)
    (hgap : 0 ≤ gap) (hwf : ∀ x ∈ elems, x.y1 ≤ x.y2) (hpos : e.y1 < e.y2) :
    ∀ (cl : List Box) (cur : Int),
      cl.Pairwise byY1 →
      e ∈ cl →
      cur ≤ e.y1 →
      (∀ c ∈ cl, c.y1 ≤ c.y2 ∧ c.y2 ≤ yB) →
      (∀ c ∈ cl, c ≠ e → c.y2 ≤ e.y1 ∨ e.y2 ≤ c.y1) →
      ∃ A B, sliceDoubleAux gap xL xM xR yB elems cl cur = A ++ e :: B ∧
        (∀ o ∈ A, o.y2 ≤ e.y1) ∧ (∀ o ∈ B, e.y2 ≤ o.y1) := by
  intro cl
  induction cl with
  | nil => intro cur _ he; exact absurd he (List.not_mem_nil e)
  | cons c rest ih =>
    intro cur hsort hmem hcur hprops hdisj
    have hsort' := List.pairwise_cons.mp hsort
    have hc := hprops c (List.mem_cons_self c rest)
    unfold sliceDoubleAux
    by_cases hce : c = e
    · subst hce
      rw [if_neg (by omega : ¬ c.y1 < cur)]
      refine ⟨columnSlices gap xL xM xR cur c.y1 elems,
              sliceDoubleAux gap xL xM xR yB elems rest c.y2, rfl, ?_, ?_⟩
      · intro o ho
        exact ((columnSlices_facts gap xL xM xR cur c.y1 elems hgap hwf).2 o ho).2.1
      · intro o ho
        exact ((sliceDoubleAux_facts gap xL xM xR yB elems hgap hwf rest c.y2
          (fun x hx => hprops x (List.mem_cons_of_mem _ hx))).2 o ho).1
    · have hmem' : e ∈ rest := by
        rcases List.mem_cons.mp hmem with h | h
        · exact absurd h.symm hce
        · exact h
      have hcy1 : c.y1 ≤ e.y1 := hsort'.1 e hmem'
      have hc2 : c.y2 ≤ e.y1 := by
        rcases hdisj c (List.mem_cons_self c rest) hce with h | h
        · exact h
        · omega
      by_cases hs : c.y1 < cur
      · rw [if_pos hs]
        exact ih cur hsort'.2 hmem' hcur
          (fun x hx => hprops x (List.mem_cons_of_mem _ hx))
          (fun x hx hne => hdisj x (List.mem_cons_of_mem _ hx) hne)
      · rw [if_neg hs]
        obtain ⟨A', B', heq, hA', hB'⟩ := ih c.y2 hsort'.2 hmem' (by omega)
          (fun x hx => hprops x (List.mem_cons_of_mem _ hx))
          (fun x hx hne => hdisj x (List.mem_cons_of_mem _ hx) hne)
        refine ⟨columnSlices gap xL xM xR cur c.y1 elems ++ c :: A', B', ?_, ?_, hB'⟩
        · rw [heq]
          simp [List.append_assoc]
        · intro o ho
          rcases List.mem_append.mp ho with h | h
          · have := ((columnSlices_facts gap xL xM xR cur c.y1 elems hgap hwf).2 o h).2.1
            omega
          · rcases List.mem_cons.mp h with h' | h'
            · rw [h']; exact hc2
            · exact hA' o h'

/-- Claim C5: an element of a double band spanning the midline by more
than the margin is never assigned to the left or right column
(`inXRange` fails on both), and (when the crossing elements are
vertically separated) the band's slice list contains a dedicated slice
at exactly the element's own bounding box, with every slice before it
lying entirely above it and every slice after it entirely below it —
left/right slicing resumes below the element. -/
theorem c5_crossing_own_slice (gap margin xL xM xR yT yB : Int) (elems : List Box) (e : Box)
    (hgap : 0 ≤ gap) (hm : 0 ≤ margin)
    (hwf : ∀ x ∈ elems, x.y1 ≤ x.y2)
    (he : e ∈ elems)
    (hcross : crossesMid xM margin e = true)
    (hwin : inYWindow yT yB e = true)
    (hpos : e.y1 < e.y2)
    (hdisj : ∀ c ∈ elems, crossesMid xM margin c = true → inYWindow yT yB c = true →
        c ≠ e → c.y2 ≤ e.y1 ∨ e.y2 ≤ c.y1) :
    (inXRange xL xM e = false ∧ inXRange xM xR e = false) ∧
    ∃ A B, sliceBand gap margin elems (Band.double xL xM xR yT yB) = A ++ e :: B ∧
      (∀ o ∈ A, o.y2 ≤ e.y1) ∧ (∀ o ∈ B, e.y2 ≤ o.y1) := by
  have hcross' := hcross
  rw [crossesMid, Bool.and_eq_true, decide_eq_true_eq, decide_eq_true_eq] at hcross'
  have hwin' := hwin
  rw [inYWindow, Bool.and_eq_true, decide_eq_true_eq, decide_eq_true_eq] at hwin'
  constructor
  · constructor
    · have hx : ¬ (e.x2 ≤ xM) := by omega
      simp [inXRange, hx]
    · have hx : ¬ (xM ≤ e.x1) := by omega
      simp [inXRange, hx]
  · have hecl : e ∈ crossElems xM margin yT yB elems := by
      rw [crossElems, sortY1_mem, List.mem_filter]
      refine ⟨he, ?_⟩
      rw [Bool.and_eq_true]
      exact ⟨hcross, hwin⟩
    refine sliceDoubleAux_cross_mem gap xL xM xR yB elems e hgap hwf hpos
      (crossElems xM margin yT yB elems) yT (sortY1_sorted _) hecl hwin'.1
      (crossElems_props xM margin yT yB elems hwf)
      (fun c hc hne => ?_)
    rw [crossElems, sortY1_mem, List.mem_filter] at hc
    obtain ⟨hc1, hc2⟩ := hc
    rw [Bool.and_eq_true] at hc2
    exact hdisj c hc1 hc2.1 hc2.2 hne

/-- Witness for `c5_crossing_own_slice`: a two-column band with one
midline-crossing figure between the columns' rows. -/
theorem c5_crossing_own_slice_witness :
    ((0 : Int) ≤ 20 ∧ (0 : Int) ≤ 10 ∧
     (∀ x ∈ [Box.mk 0 0 100 100, Box.mk 420 0 800 100,
             Box.mk 100 200 700 300, Box.mk 0 350 100 450], x.y1 ≤ x.y2) ∧
     Box.mk 100 200 700 300 ∈
       [Box.mk 0 0 100 100, Box.mk 420 0 800 100,
        Box.mk 100 200 700 300, Box.mk 0 350 100 450] ∧
     crossesMid 400 10 (Box.mk 100 200 700 300) = true ∧
     inYWindow 0 500 (Box.mk 100 200 700 300) = true ∧
     (Box.mk 100 200 700 300).y1 < (Box.mk 100 200 700 300).y2 ∧
     (∀ c ∈ [Box.mk 0 0 100 100, Box.mk 420 0 800 100,
             Box.mk 100 200 700 300, Box.mk 0 350 100 450],
        crossesMid 400 10 c = true → inYWindow 0 500 c = true →
        c ≠ Box.mk 100 200 700 300 →
        c.y2 ≤ (Box.mk 100 200 700 300).y1 ∨ (Box.mk 100 200 700 300).y2 ≤ c.y1)) ∧
    ((inXRange 0 400 (Box.mk 100 200 700 300) = false ∧
      inXRange 400 800 (Box.mk 100 200 700 300) = false) ∧
     ∃ A B, sliceBand 20 10
         [Box.mk 0 0 100 100, Box.mk 420 0 800 100,
          Box.mk 100 200 700 300, Box.mk 0 350 100 450]
         (Band.double 0 400 800 0 500) = A ++ Box.mk 100 200 700 300 :: B ∧
       (∀ o ∈ A, o.y2 ≤ (Box.mk 100 200 700 300).y1) ∧
       (∀ o ∈ B, (Box.mk 100 200 700 300).y2 ≤ o.y1)) :=
  ⟨⟨by decide, by decide, by decide, by decide, by decide, by decide, by decide, by decide⟩,
   c5_crossing_own_slice 20 10 0 400 800 0 500 _ _ (by decide) (by decide) (by decide)
     (by decide) (by decide) (by decide) (by decide) (by decide)⟩

/-! ### Claim C10 -/

/-- Claim C10: `decode_xml_points` returns `None` (rather than raising)
whenever the external XML parse fails, and `plot_points`, upon receiving
`None` from the decoder, shows the unmodified image and returns without
drawing any point or text. -/
theorem c10_decode_none_plot_unmodified :
    (∀ parsed : Option XmlRoot, parsed = none → decode_xml_points parsed = none)
  ∧ (∀ (fromstring : List Char → Option XmlRoot) (text : List Char),
      fromstring (py_replace (py_replace text "```xml".data []) "```".data []) = none →
      plot_points_ops fromstring text = some ([] : List DrawOp)) := by
  constructor
  · intro parsed h
    rw [h]
    rfl
  · intro fromstring text h
    unfold plot_points_ops
    rw [h]
    rfl

/-- Witness for `c10_decode_none_plot_unmodified`: an XML parser that
always fails, on the input `"<points"`. -/
theorem c10_decode_none_plot_unmodified_witness :
    ((none : Option XmlRoot) = none ∧ decode_xml_points none = none) ∧
    ((fun _ : List Char => (none : Option XmlRoot))
        (py_replace (py_replace "<points".data "```xml".data []) "```".data []) = none ∧
     plot_points_ops (fun _ => none) "<points".data = some ([] : List DrawOp)) :=
  ⟨⟨rfl, c10_decode_none_plot_unmodified.1 none rfl⟩,
   ⟨rfl, c10_decode_none_plot_unmodified.2 (fun _ => none) "<points".data rfl⟩⟩

end PdfAgent
